import Mathlib

/-!
Verification of the search pipeline in `src/search.py` of MERLIN-RAG.

The Python code manipulates dictionaries (search hits / fetched records)
whose values are strings, lists, `None`, or other objects.  We embed such
values as `PyVal`, dictionaries as association lists (`PyDict`), and each
pipeline function (`dedupe_by_link`, `fetch_urls_with_proxy` together with
its inner `fetch_one`, `normalize_records`, `_clean`, `is_failed_content`,
`filter_failed_and_tiny`, `to_snippet_only`,
`format_results_for_llm_snippet_only`) as a Lean function translated
line by line from the source.  Network I/O is modelled by an oracle giving,
for each item index and attempt number, the outcome of the HTTP GET issued
by `session.get` (a status/body response, a transient error — `Timeout`,
`ConnectionError`, `ChunkedEncodingError` — or any other exception).
Thread-pool completion order is modelled by an explicit list of indices in
which the futures complete.
-/

/-- Embedding of a Python value as stored in a search-hit dictionary:
`none` is Python `None` (also used for an absent key), `str` a string,
`vlist` a list (element contents are irrelevant to the code under study),
`num`/`bool` stand for the remaining ill-typed possibilities. -/
inductive PyVal where
  | none : PyVal
  | str : String → PyVal
  | vlist : List String → PyVal
  | num : Int → PyVal
  | bool : Bool → PyVal
deriving DecidableEq, Repr

/-- Python truthiness (`if not x` tests): `None`, `""`, `[]`, `0`, `False`
are falsy, everything else truthy. -/
def PyVal.truthy : PyVal → Bool
  | .none => false
  | .str s => !(s = "")
  | .vlist l => !(l = [])
  | .num n => !(n = 0)
  | .bool b => b

/-- True iff the value is a string. -/
def PyVal.isStr : PyVal → Bool
  | .str _ => true
  | _ => false

/-- True iff the value is a string or Python `None`. -/
def PyVal.isStrOrNull : PyVal → Bool
  | .str _ => true
  | .none => true
  | _ => false

/-- True iff the value is a list or Python `None`. -/
def PyVal.isListOrNull : PyVal → Bool
  | .vlist _ => true
  | .none => true
  | _ => false

/-- A Python dictionary with string keys, as an association list (first
binding of a key wins, mirroring lookup). -/
abbrev PyDict := List (String × PyVal)

/-- Python `d.get(k)`: the value bound to `k`, or `None` when absent. -/
def getVal : PyDict → String → PyVal
  | [], _ => PyVal.none
  | (k', v) :: rest, k => if k' = k then v else getVal rest k

/-- Python `d[k] = v`: replace the binding of `k` (or append it). -/
def setVal : PyDict → String → PyVal → PyDict
  | [], k, v => [(k, v)]
  | (k', v') :: rest, k, v =>
    if k' = k then (k, v) :: rest else (k', v') :: setVal rest k v

/-- Inner loop of `dedupe_by_link` (`search.py` lines 129-139): `seen` is
the set of links already emitted. -/
def dedupeAux (seen : List PyVal) : List PyDict → List PyDict
  | [] => []
  | it :: rest =>
    let link := getVal it "link"
    if link.truthy = false then it :: dedupeAux seen rest
    else if link ∈ seen then dedupeAux seen rest
    else it :: dedupeAux (link :: seen) rest

/-- `dedupe_by_link` (`search.py` lines 124-140): keep only the first
occurrence of each truthy `link`; items with a falsy link are kept. -/
def dedupe_by_link (items : List PyDict) : List PyDict :=
  dedupeAux [] items

/-- Characters collapsed by `_clean`'s first substitution,
the regex class `[ \t\f\v]` (`search.py` line 314). -/
def isHWS (c : Char) : Bool :=
  c = ' ' || c = '\t' || c = '\x0c' || c = '\x0b'

/-- Characters removed by `_clean`'s third substitution, the regex class
`[\x00-\x08\x0b\x0c\x0e-\x1f]` (`search.py` line 316). -/
def isCtl (c : Char) : Bool :=
  c.toNat ≤ 0x08 || c.toNat = 0x0b || c.toNat = 0x0c ||
  (0x0e ≤ c.toNat && c.toNat ≤ 0x1f)

/-- The character set Python's `str.strip()` removes (CPython's unicode
whitespace set). -/
def isPySpace (c : Char) : Bool :=
  (0x09 ≤ c.toNat && c.toNat ≤ 0x0d) ||
  (0x1c ≤ c.toNat && c.toNat ≤ 0x1f) ||
  c = ' ' || c = '\x85' || c = '\xa0' || c = '\u1680' ||
  (0x2000 ≤ c.toNat && c.toNat ≤ 0x200a) ||
  c = '\u2028' || c = '\u2029' || c = '\u202f' || c = '\u205f' || c = '\u3000'

/-- The substitution `re.sub(r"[ \t\f\v]+", " ", text)`: each maximal run
of horizontal whitespace becomes a single space.  The flag records whether
we are inside a run whose replacement space was already emitted. -/
def collapseAux : Bool → List Char → List Char
  | _, [] => []
  | inRun, c :: rest =>
    if isHWS c then
      if inRun then collapseAux true rest else ' ' :: collapseAux true rest
    else c :: collapseAux false rest

/-- First substitution of `_clean` on a character list. -/
def collapseHWS (l : List Char) : List Char := collapseAux false l

/-- The substitution `re.sub(r"\r\n?", "\n", text)` (`search.py` line 315). -/
def normCR : List Char → List Char
  | [] => []
  | '\r' :: '\n' :: rest => '\n' :: normCR rest
  | '\r' :: rest => '\n' :: normCR rest
  | c :: rest => c :: normCR rest

/-- The substitution removing control characters (`search.py` line 316). -/
def stripCtl (l : List Char) : List Char := l.filter (fun c => !isCtl c)

/-- Drop the longest suffix all of whose characters satisfy `p`. -/
def dropWhileEnd (p : Char → Bool) (l : List Char) : List Char :=
  (l.reverse.dropWhile p).reverse

/-- Python `str.strip()` on a character list: remove unicode whitespace
from both ends. -/
def pyStripL (l : List Char) : List Char :=
  dropWhileEnd isPySpace (l.dropWhile isPySpace)

/-- Python `str.strip()` on strings. -/
def pyStrip (s : String) : String := String.mk (pyStripL s.data)

/-- The function `_clean` of `search.py` (lines 309-317) on a non-`None`
string: collapse horizontal whitespace, normalize line endings, remove
control characters, strip.  (`None` is mapped to `""` at call sites below,
mirroring `if text is None: return ""`.) -/
def pyClean (s : String) : String :=
  String.mk (pyStripL (stripCtl (normCR (collapseHWS s.data))))

/-- Every horizontal-whitespace character in the list is a plain space. -/
def allHWSspace (l : List Char) : Bool :=
  l.all (fun c => !isHWS c || c = ' ')

/-- No two adjacent characters are both horizontal whitespace. -/
def noAdjHWS : List Char → Bool
  | [] => true
  | [_] => true
  | a :: b :: rest => !(isHWS a && isHWS b) && noAdjHWS (b :: rest)

/-- The head, if any, is not horizontal whitespace. -/
def headOK : List Char → Bool
  | [] => true
  | c :: _ => !isHWS c

/-- The list contains no carriage return. -/
def noCR (l : List Char) : Bool := l.all (fun c => !(c = '\r'))

/-- The list contains no control character removable by `stripCtl`. -/
def noCtl (l : List Char) : Bool := l.all (fun c => !isCtl c)

/-- The pair of sentinel tests `s.startswith(("Request failed:", "Error "))`
(`search.py` line 331-332). -/
def startsWithSentinel (s : List Char) : Bool :=
  "Request failed:".data.isPrefixOf s || "Error ".data.isPrefixOf s

/-- `is_failed_content` (`search.py` lines 320-332): `None` and falsy or
whitespace-only strings are failed; otherwise failed iff the stripped text
starts with one of the fetcher's sentinel prefixes. -/
def is_failed_content (text : Option String) : Bool :=
  match text with
  | Option.none => true
  | Option.some t =>
    if t = "" then true
    else
      let s := pyStripL t.data
      if s = [] then true else startsWithSentinel s

/-- The expression `it.get("content") or ""` (`search.py` line 351): the
content string, with every falsy value replaced by `""`.  (A truthy
non-string `content` would make the Python code raise inside
`is_failed_content`; theorems about the filter therefore assume
`contentWF`.) -/
def contentOr (it : PyDict) : String :=
  match getVal it "content" with
  | .str s => s
  | _ => ""

/-- Well-typedness of the `content` field as the pipeline guarantees it:
a string, or any falsy value (`None`, absent, ...).  Exactly on these
values the Python filter is crash-free and `contentOr` is its `or ""`. -/
def contentWF (it : PyDict) : Bool :=
  match getVal it "content" with
  | .str _ => true
  | v => !v.truthy

/-- The decision made by the body of `filter_failed_and_tiny`'s loop for a
single record: `true` means the record goes to `kept`. -/
def keepRecord (min_chars : Nat) (it : PyDict) : Bool :=
  !is_failed_content (Option.some (contentOr it)) &&
    decide (min_chars ≤ (pyClean (contentOr it)).length)

/-- `filter_failed_and_tiny` (`search.py` lines 335-362): partition the
records, dropping failures and records whose cleaned content is shorter
than `min_chars`; both outputs keep the input order. -/
def filter_failed_and_tiny (items : List PyDict) (min_chars : Nat) :
    List PyDict × List PyDict :=
  match items with
  | [] => ([], [])
  | it :: rest =>
    let p := filter_failed_and_tiny rest min_chars
    let content := contentOr it
    if is_failed_content (Option.some content) then (p.1, it :: p.2)
    else if min_chars ≤ (pyClean content).length then (it :: p.1, p.2)
    else (p.1, it :: p.2)

/-- Normalization of one record (`search.py` lines 268-288): the body of
the loop of `normalize_records`.  Note that `link` is passed through
unchanged while every other field is type-checked. -/
def normalizeRecord (it : PyDict) : PyDict :=
  [("title", match getVal it "title" with | .str s => .str s | _ => .str ""),
   ("link", getVal it "link"),
   ("snippet", match getVal it "snippet" with | .str s => .str s | _ => .none),
   ("engines", match getVal it "engines" with | .vlist l => .vlist l | _ => .none),
   ("category", match getVal it "category" with | .str s => .str s | _ => .none),
   ("content", match getVal it "content" with | .str s => .str s | _ => .none)]

/-- `normalize_records` (`search.py` lines 261-289). -/
def normalize_records (items : List PyDict) : List PyDict :=
  items.map normalizeRecord

/-- Outcome of one HTTP GET issued by `session.get(proxied_url, timeout=t)`
inside `fetch_one` (`search.py` lines 220-236): a response with a status
code and body text, a transient exception (`Timeout`, `ConnectionError`,
`ChunkedEncodingError` — the tuple `transient_errors`), or any other
exception, carrying `str(e)`. -/
inductive NetResult where
  | resp : Nat → String → NetResult
  | transientErr : String → NetResult
  | fatalErr : String → NetResult
deriving DecidableEq, Repr

/-- The retry loop of `fetch_one` (`search.py` lines 218-236), producing
the string assigned to `item["content"]`.  `net a` is the outcome of the
GET on attempt number `a`; `remaining` is the number of retries still
allowed (`max_retries - attempt`), so a transient error with
`remaining = 0` corresponds to `attempts > max_retries`. -/
def attemptFetch (net : Nat → NetResult) (attempt : Nat) : Nat → String
  | 0 =>
    match net attempt with
    | .resp s body => if s = 200 then body else "Error " ++ toString s
    | .transientErr m => "Request failed: " ++ m
    | .fatalErr m => "Request failed: " ++ m
  | r + 1 =>
    match net attempt with
    | .resp s body => if s = 200 then body else "Error " ++ toString s
    | .transientErr _ => attemptFetch net (attempt + 1) r
    | .fatalErr m => "Request failed: " ++ m

/-- The value `fetch_one` stores into `item["content"]`: `None` when the
item has no (truthy) `link`, otherwise the result of the retry loop. -/
def fetchContentVal (net : Nat → NetResult) (max_retries : Nat)
    (item : PyDict) : PyVal :=
  if (getVal item "link").truthy then PyVal.str (attemptFetch net 0 max_retries)
  else PyVal.none

/-- `fetch_one` (`search.py` lines 209-236) as a record transformer: the
worker operates on its private copy, sets `content` and returns it. -/
def fetch_one (net : Nat → NetResult) (max_retries : Nat)
    (item : PyDict) : PyDict :=
  setVal item "content" (fetchContentVal net max_retries item)

/-- `fetch_urls_with_proxy` (`search.py` lines 176-255).  `net i a` is the
outcome of the GET for item `i` on attempt `a`; `completionOrder` is the
order in which `as_completed` yields the futures.  The results buffer is
index-addressed exactly as in the source (lines 245-253): a
`None`-initialised buffer of length `len(data)`, written at each future's
index, then flattened skipping `None` entries. -/
def fetch_urls_with_proxy (net : Nat → Nat → NetResult) (max_retries : Nat)
    (data : List PyDict) (completionOrder : List Nat) : List PyDict :=
  let results : Nat → PyDict :=
    fun i => fetch_one (net i) max_retries (data.getD i [])
  let buffer : List (Option PyDict) :=
    completionOrder.foldl (fun b i => b.set i (Option.some (results i)))
      (List.replicate data.length Option.none)
  buffer.filterMap id

/-- Reference behaviour expressed by the specification (order
preservation, one record per input item): fetch each item sequentially in
input order.  Written from the spec sentence "for any input hit list of
length N, `fetch` always returns exactly N records in the same order as
input"; compared against `fetch_urls_with_proxy` in the theorems. -/
def fetchSpecSeq (net : Nat → Nat → NetResult) (max_retries : Nat) :
    Nat → List PyDict → List PyDict
  | _, [] => []
  | i, it :: rest =>
    fetch_one (net i) max_retries it :: fetchSpecSeq net max_retries (i + 1) rest

/-- Heap model for the aliasing/mutation claim: Python dictionaries are
objects on a heap (a list of cells), records are referenced by cell index.
`allocCopies` models the submission loop (`search.py` lines 240-242):
for each input reference, `item.copy()` allocates a fresh cell holding a
copy of the referenced record; it returns the new heap and the list of
copy references, in input order. -/
def allocCopies (heap : List PyDict) : List Nat → List PyDict × List Nat
  | [] => (heap, [])
  | r :: rest =>
    let heap1 := heap ++ [heap.getD r []]
    let p := allocCopies heap1 rest
    (p.1, heap.length :: p.2)

/-- One worker's mutation: `item["content"] = v` on the cell `r`. -/
def writeContent (heap : List PyDict) (r : Nat) (v : PyVal) : List PyDict :=
  heap.set r (setVal (heap.getD r []) "content" v)

/-- The workers' mutations, performed in completion order `jobs`: each job
is a cell reference paired with the content value that worker computes. -/
def writePhase (heap : List PyDict) (jobs : List (Nat × PyVal)) : List PyDict :=
  jobs.foldl (fun h jb => writeContent h jb.1 jb.2) heap

/-- `fetch_urls_with_proxy` in the heap model (`search.py` lines 238-255):
copies are allocated at submission time in input order, then each worker
mutates its own copy (in completion order `order`, a permutation of the
job indices); the function returns the final heap and the list of
references handed back to the caller (the copies, in input order). -/
def fetch_heap (net : Nat → Nat → NetResult) (max_retries : Nat)
    (heap : List PyDict) (refs : List Nat) (order : List Nat) :
    List PyDict × List Nat :=
  let p := allocCopies heap refs
  let job : Nat → Nat × PyVal := fun j =>
    let c := p.2.getD j 0
    (c, fetchContentVal (net j) max_retries (p.1.getD c []))
  (writePhase p.1 (order.map job), p.2)

/-- The coercion `x or ""` restricted to the string case, as used on the
`title`, `link` and `snippet` fields by the formatters (`search.py`
lines 402-404): falsy values become `""`.  (A truthy non-string would make
the Python code raise inside `_clean`/`.strip()`.) -/
def strOrEmpty (v : PyVal) : String :=
  match v with
  | .str s => s
  | _ => ""

/-- The separator line `"-" * 60`. -/
def sepLine : String := String.mk (List.replicate 60 '-')

/-- One record's block in `format_results_for_llm_snippet_only`
(`search.py` lines 401-411), where `i` is the 1-based source number. -/
def snippetBlock (i : Nat) (it : PyDict) : List String :=
  let title0 := pyClean (strOrEmpty (getVal it "title"))
  let title := if title0 = "" then "(Untitled)" else title0
  let link := pyStrip (strOrEmpty (getVal it "link"))
  let snippet := pyClean (strOrEmpty (getVal it "snippet"))
  ["[S" ++ toString i ++ "] " ++ title] ++
  (if link = "" then [] else ["URL: " ++ link]) ++
  (if snippet = "" then [] else ["Snippet: " ++ snippet]) ++
  [sepLine]

/-- The formatter's enumeration loop, starting at source number `i`. -/
def snippetBlocks : Nat → List PyDict → List String
  | _, [] => []
  | i, it :: rest => snippetBlock i it ++ snippetBlocks (i + 1) rest

/-- `format_results_for_llm_snippet_only` (`search.py` lines 388-413):
the notice, a blank line, a header, then one block per record. -/
def format_results_for_llm_snippet_only (results : List PyDict)
    (notice : String) : String :=
  String.intercalate "\n"
    ([notice, "", "SOURCES (snippet-only):"] ++ snippetBlocks 1 results)

/-- `to_snippet_only` (`search.py` lines 368-385): project each record to
`title` (string-coerced), `link` (as is) and `snippet` (string-or-null). -/
def to_snippet_only (items : List PyDict) : List PyDict :=
  items.map fun it =>
    [("title", match getVal it "title" with | .str s => .str s | _ => .str ""),
     ("link", getVal it "link"),
     ("snippet", match getVal it "snippet" with | .str s => .str s | _ => .none)]

/-- The `(title, link, snippet)` projection of a record, used to state
that the snippet-only formatter reads nothing else. -/
def projTLS (it : PyDict) : PyVal × PyVal × PyVal :=
  (getVal it "title", getVal it "link", getVal it "snippet")

/-- Substring test on character lists (used to exhibit counterexamples
about what a formatted string contains). -/
def hasSubstr (needle : List Char) : List Char → Bool
  | [] => needle.isPrefixOf []
  | c :: rest => needle.isPrefixOf (c :: rest) || hasSubstr needle rest

/-! ## Helper lemmas -/

theorem foldlSet_length (f : Nat → PyDict) (order : List Nat)
    (buf : List (Option PyDict)) :
    (order.foldl (fun b j => b.set j (Option.some (f j))) buf).length
      = buf.length := by
  induction order generalizing buf with
  | nil => rfl
  | cons j rest ih =>
    simp only [List.foldl_cons]
    rw [ih]
    simp

theorem foldlSet_getElem? (f : Nat → PyDict) (order : List Nat)
    (buf : List (Option PyDict)) (i : Nat) :
    (order.foldl (fun b j => b.set j (Option.some (f j))) buf)[i]? =
      if i ∈ order ∧ i < buf.length
      then Option.some (Option.some (f i)) else buf[i]? := by
  induction order generalizing buf with
  | nil => simp
  | cons j rest ih =>
    simp only [List.foldl_cons]
    rw [ih]
    by_cases hij : i = j
    · subst hij
      by_cases hlen : i < buf.length
      · by_cases hmem : i ∈ rest <;>
          simp [hmem, hlen, List.getElem?_set_self hlen, List.mem_cons]
      · rw [List.set_eq_of_length_le (Nat.le_of_not_lt hlen)]
        simp [hlen]
    · have hne : (buf.set j (Option.some (f j)))[i]? = buf[i]? :=
        List.getElem?_set_ne (fun h => hij h.symm)
      by_cases hmem : i ∈ rest <;>
        simp [hmem, hne, List.mem_cons, hij]

theorem filterMap_id_map_some (g : Nat → PyDict) (l : List Nat) :
    (l.map (fun j => Option.some (g j))).filterMap id = l.map g := by
  induction l with
  | nil => rfl
  | cons a l ih => simp [ih]

theorem fetchSpecSeq_eq_map (net : Nat → Nat → NetResult) (mr : Nat)
    (data : List PyDict) :
    ∀ k, fetchSpecSeq net mr k data =
      (List.range data.length).map
        (fun i => fetch_one (net (k + i)) mr (data.getD i [])) := by
  induction data with
  | nil => intro k; rfl
  | cons it rest ih =>
    intro k
    simp only [fetchSpecSeq, List.length_cons, List.range_succ_eq_map,
      List.map_cons, List.map_map]
    refine List.cons_eq_cons.mpr ⟨by simp, ?_⟩
    rw [ih (k + 1)]
    apply List.map_congr_left
    intro i _
    simp [Function.comp, Nat.add_assoc, Nat.add_comm 1 i]

/-! ## C1 -/

/-- C1: for every input list of hits, `fetch_urls_with_proxy` returns a
list of exactly the same length and in the same order as its input, with
one record per input item (the sequential `fetchSpecSeq`), regardless of
the per-item network outcomes (`net`), the retry budget, or the order in
which the futures complete (any permutation of the indices). -/
theorem fetch_urls_with_proxy_length_order
    (net : Nat → Nat → NetResult) (max_retries : Nat)
    (data : List PyDict) (completionOrder : List Nat)
    (hperm : completionOrder.Perm (List.range data.length)) :
    fetch_urls_with_proxy net max_retries data completionOrder
        = fetchSpecSeq net max_retries 0 data ∧
      (fetch_urls_with_proxy net max_retries data completionOrder).length
        = data.length := by
  have hmem : ∀ i : Nat, i ∈ completionOrder ↔ i < data.length := fun i => by
    rw [hperm.mem_iff, List.mem_range]
  have hbuf :
      completionOrder.foldl
          (fun b j => b.set j
            (Option.some (fetch_one (net j) max_retries (data.getD j []))))
          (List.replicate data.length Option.none)
        = (List.range data.length).map
            (fun i => Option.some (fetch_one (net i) max_retries (data.getD i []))) := by
    apply List.ext_getElem?
    intro i
    rw [foldlSet_getElem?
      (fun j => fetch_one (net j) max_retries (data.getD j []))]
    by_cases hi : i < data.length
    · simp [hmem i, hi, List.getElem?_range hi]
    · have h1 : (List.range data.length).length ≤ i := by
        simpa using Nat.le_of_not_lt hi
      simp [hmem i, hi, List.getElem?_eq_none h1, Nat.le_of_not_lt hi]
  have key : fetch_urls_with_proxy net max_retries data completionOrder
      = fetchSpecSeq net max_retries 0 data := by
    simp only [fetch_urls_with_proxy]
    rw [hbuf, filterMap_id_map_some, fetchSpecSeq_eq_map net max_retries data 0]
    apply List.map_congr_left
    intro i _
    simp
  refine ⟨key, ?_⟩
  rw [key, fetchSpecSeq_eq_map net max_retries data 0]
  simp

/-- Witness for C1 at a concrete input: two hits, futures completing in
reversed order; the fetcher still returns one record per hit in input
order. -/
theorem fetch_urls_with_proxy_length_order_witness :
    [1, 0].Perm (List.range ([[("link", PyVal.str "u")], []] : List PyDict).length) ∧
      fetch_urls_with_proxy (fun _ _ => NetResult.resp 200 "body") 1
          [[("link", PyVal.str "u")], []] [1, 0]
        = fetchSpecSeq (fun _ _ => NetResult.resp 200 "body") 1 0
            [[("link", PyVal.str "u")], []] :=
  ⟨by decide,
   (fetch_urls_with_proxy_length_order (fun _ _ => NetResult.resp 200 "body") 1
      [[("link", PyVal.str "u")], []] [1, 0] (by decide)).1⟩

/-! ## Retry-loop lemmas and C2, C3, C10 -/

theorem attemptFetch_exhaust (net : Nat → NetResult) :
    ∀ (r a : Nat),
      (∀ j, j ≤ r → ∃ m, net (a + j) = NetResult.transientErr m) →
      ∃ m, net (a + r) = NetResult.transientErr m ∧
        attemptFetch net a r = "Request failed: " ++ m := by
  intro r
  induction r with
  | zero =>
    intro a h
    obtain ⟨m, hm⟩ := h 0 (Nat.le_refl 0)
    rw [Nat.add_zero] at hm
    exact ⟨m, by rw [Nat.add_zero]; exact hm, by simp [attemptFetch, hm]⟩
  | succ r ih =>
    intro a h
    obtain ⟨m0, hm0⟩ := h 0 (Nat.zero_le _)
    rw [Nat.add_zero] at hm0
    obtain ⟨m, hm, hres⟩ := ih (a + 1) (fun j hj => by
      obtain ⟨m', hm'⟩ := h (j + 1) (Nat.succ_le_succ hj)
      have e : a + (j + 1) = a + 1 + j := by omega
      rw [e] at hm'
      exact ⟨m', hm'⟩)
    refine ⟨m, ?_, ?_⟩
    · have e : a + (r + 1) = a + 1 + r := by omega
      rw [e]
      exact hm
    · simp [attemptFetch, hm0, hres]

theorem attemptFetch_congr (net net' : Nat → NetResult) :
    ∀ (r a : Nat), (∀ j, a ≤ j → j ≤ a + r → net' j = net j) →
      attemptFetch net' a r = attemptFetch net a r := by
  intro r
  induction r with
  | zero =>
    intro a h
    have ha : net' a = net a := h a (Nat.le_refl a) (Nat.le_add_right a 0)
    simp [attemptFetch, ha]
  | succ r ih =>
    intro a h
    have ha : net' a = net a := h a (Nat.le_refl a) (Nat.le_add_right a _)
    have hrec := ih (a + 1) (fun j h1 h2 => h j (Nat.le_of_succ_le h1) (by omega))
    simp [attemptFetch, ha, hrec]

/-- C2: per-item error semantics of `fetch_one` for an item with a link.
An HTTP 200 response makes `content` the response body; a non-200 status
is recorded immediately as the sentinel `"Error <status>"` (for every
retry budget, so it is never retried); any other (non-transient) exception
is terminal with the sentinel `"Request failed: <cause>"`; transient
failures are retried until the budget is exhausted, after which `content`
is the sentinel built from the last cause; only attempts `0..max_retries`
are ever consulted; and the function always returns a record (the failure
is in-band, never an exception). -/
theorem fetch_one_error_semantics (net : Nat → NetResult) (max_retries : Nat)
    (item : PyDict) (hlink : (getVal item "link").truthy = true) :
    (∀ body, net 0 = NetResult.resp 200 body →
        fetch_one net max_retries item
          = setVal item "content" (PyVal.str body)) ∧
    (∀ s body, net 0 = NetResult.resp s body → s ≠ 200 →
        fetch_one net max_retries item
          = setVal item "content" (PyVal.str ("Error " ++ toString s))) ∧
    (∀ m, net 0 = NetResult.fatalErr m →
        fetch_one net max_retries item
          = setVal item "content" (PyVal.str ("Request failed: " ++ m))) ∧
    ((∀ j, j ≤ max_retries → ∃ m, net j = NetResult.transientErr m) →
        ∃ m, net max_retries = NetResult.transientErr m ∧
          fetch_one net max_retries item
            = setVal item "content" (PyVal.str ("Request failed: " ++ m))) ∧
    (∀ net', (∀ j, j ≤ max_retries → net' j = net j) →
        fetch_one net' max_retries item = fetch_one net max_retries item) ∧
    (∃ v, fetch_one net max_retries item = setVal item "content" v) := by
  refine ⟨?_, ?_, ?_, ?_, ?_, ?_⟩
  · intro body h
    cases max_retries <;> simp [fetch_one, fetchContentVal, hlink, attemptFetch, h]
  · intro s body h hs
    cases max_retries <;> simp [fetch_one, fetchContentVal, hlink, attemptFetch, h, hs]
  · intro m h
    cases max_retries <;> simp [fetch_one, fetchContentVal, hlink, attemptFetch, h]
  · intro h
    obtain ⟨m, hm, hres⟩ := attemptFetch_exhaust net max_retries 0 (fun j hj => by
      simpa using h j hj)
    rw [Nat.zero_add] at hm
    exact ⟨m, hm, by simp [fetch_one, fetchContentVal, hlink, hres]⟩
  · intro net' h
    have := attemptFetch_congr net net' max_retries 0 (fun j _ h2 => by
      exact h j (by omega))
    simp [fetch_one, fetchContentVal, hlink, this]
  · exact ⟨fetchContentVal net max_retries item, rfl⟩

/-- Witness for C2: a 404 response is recorded, without retry, as the
in-band sentinel string "Error 404". -/
theorem fetch_one_error_semantics_witness :
    ((getVal [("link", PyVal.str "u")] "link").truthy = true) ∧
      fetch_one (fun _ => NetResult.resp 404 "nf") 1 [("link", PyVal.str "u")]
        = setVal [("link", PyVal.str "u")] "content" (PyVal.str "Error 404") :=
  ⟨by decide,
   (fetch_one_error_semantics (fun _ => NetResult.resp 404 "nf") 1
      [("link", PyVal.str "u")] (by decide)).2.1 404 "nf" rfl (by decide)⟩

/-- C3: a hit whose `link` field is absent (Python `None`) yields a record
whose `content` is `None`, and the result does not depend on the network
oracle or retry budget at all (zero network calls). -/
theorem fetch_one_no_link (net : Nat → NetResult) (max_retries : Nat)
    (item : PyDict) (h : getVal item "link" = PyVal.none) :
    fetch_one net max_retries item = setVal item "content" PyVal.none ∧
      ∀ (net' : Nat → NetResult) (mr' : Nat),
        fetch_one net' mr' item = fetch_one net max_retries item := by
  have ht : (getVal item "link").truthy = false := by rw [h]; rfl
  constructor
  · simp [fetch_one, fetchContentVal, ht]
  · intro net' mr'
    simp [fetch_one, fetchContentVal, ht]

/-- Witness for C3 at a concrete link-less hit. -/
theorem fetch_one_no_link_witness :
    getVal [("title", PyVal.str "t")] "link" = PyVal.none ∧
      fetch_one (fun _ => NetResult.resp 200 "body") 3 [("title", PyVal.str "t")]
        = setVal [("title", PyVal.str "t")] "content" PyVal.none :=
  ⟨by decide,
   (fetch_one_no_link (fun _ => NetResult.resp 200 "body") 3
      [("title", PyVal.str "t")] (by decide)).1⟩

theorem dedupeAux_keeps_falsy (items : List PyDict) :
    ∀ seen, (dedupeAux seen items).filter (fun x => !(getVal x "link").truthy)
      = items.filter (fun x => !(getVal x "link").truthy) := by
  induction items with
  | nil => intro seen; rfl
  | cons it rest ih =>
    intro seen
    simp only [dedupeAux]
    by_cases hfal : (getVal it "link").truthy = false
    · simp [hfal, List.filter_cons, ih]
    · have htru : (getVal it "link").truthy = true := by
        cases h : (getVal it "link").truthy
        · exact absurd h hfal
        · rfl
      by_cases hseen : getVal it "link" ∈ seen
      · simp [htru, hseen, List.filter_cons, ih]
      · simp [htru, hseen, List.filter_cons, ih]

/-- C10: a hit whose `link` is falsy (absent, `None`, or the empty string)
is treated like a link-less hit: `dedupe_by_link` retains every falsy-link
hit (with multiplicity and in order — so several hits with empty-string
links are all kept, none is ever counted as a duplicate), and `fetch_one`
sets its `content` to `None` without consulting the network. -/
theorem falsy_link_behaviour (it : PyDict) (net : Nat → NetResult) (mr : Nat)
    (h : (getVal it "link").truthy = false) :
    (∀ items : List PyDict,
        (dedupe_by_link items).filter (fun x => !(getVal x "link").truthy)
          = items.filter (fun x => !(getVal x "link").truthy)) ∧
    fetch_one net mr it = setVal it "content" PyVal.none ∧
    (∀ (net' : Nat → NetResult) (mr' : Nat),
        fetch_one net' mr' it = fetch_one net mr it) := by
  refine ⟨fun items => dedupeAux_keeps_falsy items [], ?_, ?_⟩
  · simp [fetch_one, fetchContentVal, h]
  · intro net' mr'
    simp [fetch_one, fetchContentVal, h]

/-- Witness for C10: two hits with empty-string links are both kept by
dedupe, and fetching an empty-link hit stores null content. -/
theorem falsy_link_behaviour_witness :
    ((getVal [("link", PyVal.str "")] "link").truthy = false) ∧
      (dedupe_by_link [[("link", PyVal.str "")], [("link", PyVal.str "")]]).filter
          (fun x => !(getVal x "link").truthy)
        = [[("link", PyVal.str "")], [("link", PyVal.str "")]] ∧
      fetch_one (fun _ => NetResult.resp 200 "b") 1 [("link", PyVal.str "")]
        = setVal [("link", PyVal.str "")] "content" PyVal.none := by
  refine ⟨by decide, ?_, ?_⟩
  · rw [(falsy_link_behaviour [("link", PyVal.str "")]
      (fun _ => NetResult.resp 200 "b") 1 (by decide)).1
      [[("link", PyVal.str "")], [("link", PyVal.str "")]]]
    decide
  · exact (falsy_link_behaviour [("link", PyVal.str "")]
      (fun _ => NetResult.resp 200 "b") 1 (by decide)).2.1

/-! ## Filter lemmas and C5, C7 -/

theorem filterFT_eq_filter (min_chars : Nat) :
    ∀ items : List PyDict,
      filter_failed_and_tiny items min_chars
        = (items.filter (keepRecord min_chars),
           items.filter (fun it => !keepRecord min_chars it)) := by
  intro items
  induction items with
  | nil => rfl
  | cons it rest ih =>
    simp only [filter_failed_and_tiny, ih, List.filter_cons]
    by_cases hfail : is_failed_content (Option.some (contentOr it)) = true
    · simp [keepRecord, hfail]
    · by_cases hlen : min_chars ≤ (pyClean (contentOr it)).length
      · simp [keepRecord, hfail, hlen]
      · simp [keepRecord, hfail, hlen]

/-- C5 counterexample: the record whose raw content is "Error\tX" (a tab
instead of a space after "Error") is PLACED IN KEPT by
`filter_failed_and_tiny` with `min_chars = 1`, although its CLEANED
content "Error X" does match a failure signature — so membership in
`kept` is not equivalent to the claimed test on the cleaned content. -/
theorem filter_kept_despite_cleaned_failure_sig :
    (filter_failed_and_tiny [[("content", PyVal.str "Error\tX")]] 1).1
        = [[("content", PyVal.str "Error\tX")]] ∧
      is_failed_content (Option.some (pyClean "Error\tX")) = true := by
  constructor <;> decide

/-- C5 (amended): the failure-signature check is applied to the RAW
content (`it.get("content") or ""`, trimmed), not to the cleaned content:
a record is placed in `kept` iff its raw content is not failure-flagged
by `is_failed_content` (null/absent/whitespace-only counting as failed)
AND the length of its cleaned content is at least `min_chars`; `dropped`
receives exactly the other records.  (`keepRecord` is literally that
conjunction; the well-typedness hypothesis restricts to records on which
the Python code is crash-free, as the pipeline guarantees.) -/
theorem filter_failed_and_tiny_kept_iff (items : List PyDict)
    (min_chars : Nat) (_hwf : ∀ it ∈ items, contentWF it = true) :
    (filter_failed_and_tiny items min_chars).1
        = items.filter (keepRecord min_chars) ∧
      (filter_failed_and_tiny items min_chars).2
        = items.filter (fun it => !keepRecord min_chars it) := by
  have h := filterFT_eq_filter min_chars items
  exact ⟨by rw [h], by rw [h]⟩

/-- Witness for C5 (amended) on a concrete two-record list. -/
theorem filter_failed_and_tiny_kept_iff_witness :
    (∀ it ∈ ([[("content", PyVal.str "plenty of good text")],
              [("content", PyVal.str "Error 404")]] : List PyDict),
        contentWF it = true) ∧
      (filter_failed_and_tiny
          [[("content", PyVal.str "plenty of good text")],
           [("content", PyVal.str "Error 404")]] 5).1
        = ([[("content", PyVal.str "plenty of good text")]] : List PyDict) := by
  refine ⟨by decide, ?_⟩
  rw [(filter_failed_and_tiny_kept_iff
    [[("content", PyVal.str "plenty of good text")],
     [("content", PyVal.str "Error 404")]] 5 (by decide)).1]
  decide

/-- C7: `filter_failed_and_tiny` is an order-preserving partition of its
input: `kept` and `dropped` are sublists of the input (relative order
preserved), their concatenation is a permutation of the input (every
record lands in exactly one side, as a multiset), and the lengths add up. -/
theorem filter_failed_and_tiny_partition (items : List PyDict)
    (min_chars : Nat) (_hwf : ∀ it ∈ items, contentWF it = true) :
    ((filter_failed_and_tiny items min_chars).1
        ++ (filter_failed_and_tiny items min_chars).2).Perm items ∧
      (filter_failed_and_tiny items min_chars).1.Sublist items ∧
      (filter_failed_and_tiny items min_chars).2.Sublist items ∧
      (filter_failed_and_tiny items min_chars).1.length
          + (filter_failed_and_tiny items min_chars).2.length
        = items.length := by
  have h := filterFT_eq_filter min_chars items
  have h1 : (filter_failed_and_tiny items min_chars).1
      = items.filter (keepRecord min_chars) := by rw [h]
  have h2 : (filter_failed_and_tiny items min_chars).2
      = items.filter (fun it => !keepRecord min_chars it) := by rw [h]
  rw [h1, h2]
  refine ⟨List.filter_append_perm _ _, List.filter_sublist _,
    List.filter_sublist _, ?_⟩
  have hp := (List.filter_append_perm (keepRecord min_chars) items).length_eq
  simpa [List.length_append] using hp

/-- Witness for C7 on a concrete list containing a failure, a tiny record
and a kept record. -/
theorem filter_failed_and_tiny_partition_witness :
    (∀ it ∈ ([[("content", PyVal.str "plenty of good text")],
              [("content", PyVal.none)],
              [("content", PyVal.str "tiny")]] : List PyDict),
        contentWF it = true) ∧
      ((filter_failed_and_tiny
            [[("content", PyVal.str "plenty of good text")],
             [("content", PyVal.none)],
             [("content", PyVal.str "tiny")]] 5).1
          ++ (filter_failed_and_tiny
            [[("content", PyVal.str "plenty of good text")],
             [("content", PyVal.none)],
             [("content", PyVal.str "tiny")]] 5).2).Perm
        [[("content", PyVal.str "plenty of good text")],
         [("content", PyVal.none)],
         [("content", PyVal.str "tiny")]] :=
  ⟨by decide,
   (filter_failed_and_tiny_partition
      [[("content", PyVal.str "plenty of good text")],
       [("content", PyVal.none)],
       [("content", PyVal.str "tiny")]] 5 (by decide)).1⟩

/-! ## C6 -/

/-- C6 counterexample: `normalize_records` does NOT coerce the `link`
field: a record whose `link` is the boolean `True` keeps that boolean —
which is neither a string nor null — in its normalized output. -/
theorem normalize_records_link_not_coerced :
    getVal ((normalize_records [[("link", PyVal.bool true)]]).getD 0 []) "link"
        = PyVal.bool true ∧
      PyVal.isStrOrNull
          (getVal ((normalize_records [[("link", PyVal.bool true)]]).getD 0 [])
            "link")
        = false := by
  constructor <;> decide

theorem normalizeRecord_spec (it : PyDict) :
    (normalizeRecord it).map Prod.fst
        = ["title", "link", "snippet", "engines", "category", "content"] ∧
      PyVal.isStr (getVal (normalizeRecord it) "title") = true ∧
      getVal (normalizeRecord it) "link" = getVal it "link" ∧
      PyVal.isStrOrNull (getVal (normalizeRecord it) "snippet") = true ∧
      PyVal.isListOrNull (getVal (normalizeRecord it) "engines") = true ∧
      PyVal.isStrOrNull (getVal (normalizeRecord it) "category") = true ∧
      PyVal.isStrOrNull (getVal (normalizeRecord it) "content") = true := by
  refine ⟨rfl, ?_, ?_, ?_, ?_, ?_, ?_⟩
  · simp only [normalizeRecord, getVal, String.reduceEq, reduceIte]
    cases h : getVal it "title" <;> rfl
  · simp only [normalizeRecord, getVal, String.reduceEq, reduceIte]
  · simp only [normalizeRecord, getVal, String.reduceEq, reduceIte]
    cases h : getVal it "snippet" <;> rfl
  · simp only [normalizeRecord, getVal, String.reduceEq, reduceIte]
    cases h : getVal it "engines" <;> rfl
  · simp only [normalizeRecord, getVal, String.reduceEq, reduceIte]
    cases h : getVal it "category" <;> rfl
  · simp only [normalizeRecord, getVal, String.reduceEq, reduceIte]
    cases h : getVal it "content" <;> rfl

/-- C6 (amended): `normalize_records` returns one record per input record
(in order); every output record has exactly the keys `title`, `link`,
`snippet`, `engines`, `category`, `content`; `title` is always a string
(defaulting to `""`), `snippet`, `category` and `content` are always
string-or-null, `engines` is always list-or-null — missing or ill-typed
values of those fields are defaulted to null/empty rather than omitted,
and normalization is total (never raises).  The `link` field, however, is
passed through unchanged (so a missing link becomes null, but an
ill-typed link is NOT coerced). -/
theorem normalize_records_amended (items : List PyDict) :
    (normalize_records items).length = items.length ∧
      (∀ i : Nat,
        (normalize_records items)[i]? = (items[i]?).map normalizeRecord) ∧
      ∀ it ∈ items,
        (normalizeRecord it).map Prod.fst
            = ["title", "link", "snippet", "engines", "category", "content"] ∧
          PyVal.isStr (getVal (normalizeRecord it) "title") = true ∧
          getVal (normalizeRecord it) "link" = getVal it "link" ∧
          PyVal.isStrOrNull (getVal (normalizeRecord it) "snippet") = true ∧
          PyVal.isListOrNull (getVal (normalizeRecord it) "engines") = true ∧
          PyVal.isStrOrNull (getVal (normalizeRecord it) "category") = true ∧
          PyVal.isStrOrNull (getVal (normalizeRecord it) "content") = true := by
  refine ⟨by simp [normalize_records], ?_, ?_⟩
  · intro i
    simp [normalize_records]
  · intro it _
    exact normalizeRecord_spec it

/-- Witness for C6 (amended) at a concrete ill-typed record. -/
theorem normalize_records_amended_witness :
    ([("title", PyVal.num 3), ("engines", PyVal.str "ddg")] : PyDict)
        ∈ ([[("title", PyVal.num 3), ("engines", PyVal.str "ddg")]] : List PyDict) ∧
      PyVal.isStr
          (getVal (normalizeRecord
            [("title", PyVal.num 3), ("engines", PyVal.str "ddg")]) "title")
        = true := by
  refine ⟨by decide, ?_⟩
  exact ((normalize_records_amended
    [[("title", PyVal.num 3), ("engines", PyVal.str "ddg")]]).2.2
    [("title", PyVal.num 3), ("engines", PyVal.str "ddg")] (by decide)).2.1

/-! ## Heap-model lemmas and C8 -/

theorem allocCopies_spec :
    ∀ (refs : List Nat) (heap : List PyDict),
      (∃ t, (allocCopies heap refs).1 = heap ++ t) ∧
        (∀ c ∈ (allocCopies heap refs).2, heap.length ≤ c) ∧
        (allocCopies heap refs).2.Nodup ∧
        (allocCopies heap refs).2.length = refs.length := by
  intro refs
  induction refs with
  | nil =>
    intro heap
    exact ⟨⟨[], by simp [allocCopies]⟩, by simp [allocCopies],
      by simp [allocCopies], rfl⟩
  | cons r rest ih =>
    intro heap
    obtain ⟨⟨t, ht⟩, hge, hnd, hlen⟩ := ih (heap ++ [heap.getD r []])
    simp only [allocCopies]
    refine ⟨⟨[heap.getD r []] ++ t, by rw [ht]; simp⟩, ?_, ?_,
      by simp only [List.length_cons, hlen]⟩
    · intro c hc
      rcases List.mem_cons.mp hc with h | h
      · omega
      · have := hge c h
        simp only [List.length_append, List.length_cons, List.length_nil] at this
        omega
    · refine List.Nodup.cons ?_ hnd
      intro hmem
      have := hge heap.length hmem
      simp only [List.length_append, List.length_cons, List.length_nil] at this
      omega

theorem writePhase_frame :
    ∀ (jobs : List (Nat × PyVal)) (heap : List PyDict) (n : Nat),
      (∀ jb ∈ jobs, n ≤ jb.1) →
      ∀ i, i < n → (writePhase heap jobs)[i]? = heap[i]? := by
  intro jobs
  induction jobs with
  | nil => intro heap n _ i _; rfl
  | cons jb rest ih =>
    intro heap n h i hi
    have hne : jb.1 ≠ i := by
      have := h jb (List.mem_cons_self jb rest)
      omega
    have step : (writeContent heap jb.1 jb.2)[i]? = heap[i]? := by
      unfold writeContent
      exact List.getElem?_set_ne hne
    have tail := ih (writeContent heap jb.1 jb.2) n
      (fun j hj => h j (List.mem_cons_of_mem _ hj)) i hi
    calc (writePhase heap (jb :: rest))[i]?
        = (writePhase (writeContent heap jb.1 jb.2) rest)[i]? := rfl
      _ = (writeContent heap jb.1 jb.2)[i]? := tail
      _ = heap[i]? := step

/-- C8: the fetcher never mutates its input (frame property, in an
explicit heap model): all cells that existed before the call — in
particular every input hit — are unchanged afterwards (so no `content`
key is added to any input hit), and the references returned to the caller
are pairwise distinct fresh cells, aliased neither to any input hit nor
to each other, one per input item. -/
theorem fetch_heap_no_mutation (net : Nat → Nat → NetResult) (mr : Nat)
    (heap : List PyDict) (refs order : List Nat)
    (hrefs : ∀ r ∈ refs, r < heap.length)
    (horder : ∀ j ∈ order, j < refs.length) :
    (∀ i, i < heap.length →
        (fetch_heap net mr heap refs order).1[i]? = heap[i]?) ∧
      (fetch_heap net mr heap refs order).2.Nodup ∧
      (∀ c ∈ (fetch_heap net mr heap refs order).2,
        c ∉ refs ∧ heap.length ≤ c) ∧
      (fetch_heap net mr heap refs order).2.length = refs.length := by
  obtain ⟨⟨t, ht⟩, hge, hnd, hlen⟩ := allocCopies_spec refs heap
  have hsnd : (fetch_heap net mr heap refs order).2
      = (allocCopies heap refs).2 := rfl
  refine ⟨?_, hsnd ▸ hnd, ?_, hsnd ▸ hlen⟩
  · intro i hi
    have hjobs : ∀ jb ∈ (order.map (fun j =>
        ((allocCopies heap refs).2.getD j 0,
          fetchContentVal (net j) mr
            ((allocCopies heap refs).1.getD
              ((allocCopies heap refs).2.getD j 0) [])))), heap.length ≤ jb.1 := by
      intro jb hjb
      obtain ⟨j, hj, rfl⟩ := List.mem_map.mp hjb
      have hj' : j < (allocCopies heap refs).2.length := by
        rw [hlen]; exact horder j hj
      have hcg : (allocCopies heap refs).2.getD j 0
          = (allocCopies heap refs).2[j] := by
        simp [List.getD_eq_getElem?_getD, List.getElem?_eq_getElem hj']
      have hcm : (allocCopies heap refs).2.getD j 0
          ∈ (allocCopies heap refs).2 := by
        rw [hcg]; exact List.getElem_mem hj'
      exact hge _ hcm
    have hframe := writePhase_frame _ (allocCopies heap refs).1 heap.length
      hjobs i hi
    have hfst : (fetch_heap net mr heap refs order).1
        = writePhase (allocCopies heap refs).1 (order.map (fun j =>
            ((allocCopies heap refs).2.getD j 0,
              fetchContentVal (net j) mr
                ((allocCopies heap refs).1.getD
                  ((allocCopies heap refs).2.getD j 0) [])))) := rfl
    rw [hfst, hframe, ht, List.getElem?_append_left hi]
  · intro c hc
    rw [hsnd] at hc
    refine ⟨?_, hge c hc⟩
    intro hcr
    have := hrefs c hcr
    have := hge c hc
    omega

/-- Witness for C8: one input hit on a one-cell heap, future 0 completing
first; the input cell is unchanged and the returned reference is fresh. -/
theorem fetch_heap_no_mutation_witness :
    (∀ r ∈ [0], r < ([[("link", PyVal.str "u")]] : List PyDict).length) ∧
      (fetch_heap (fun _ _ => NetResult.resp 200 "body") 1
          [[("link", PyVal.str "u")]] [0] [0]).1[0]?
        = Option.some [("link", PyVal.str "u")] := by
  refine ⟨by decide, ?_⟩
  rw [(fetch_heap_no_mutation (fun _ _ => NetResult.resp 200 "body") 1
    [[("link", PyVal.str "u")]] [0] [0] (by decide) (by decide)).1 0 (by decide)]
  decide

/-! ## C9 -/

/-- C9 counterexample: read literally ("the returned string never
contains the literal text of any record's content field"), the claim is
false: for a record whose `content` text coincides with its `title`, the
content's literal text does occur in the output. -/
theorem snippet_only_contains_content_text :
    hasSubstr ("x".data)
        (format_results_for_llm_snippet_only
          [[("title", PyVal.str "x"), ("content", PyVal.str "x")]]
          "notice").data
      = true := by decide

theorem snippetBlock_congr (i : Nat) (a b : PyDict) (h : projTLS a = projTLS b) :
    snippetBlock i a = snippetBlock i b := by
  have h1 : getVal a "title" = getVal b "title" := by
    have := congrArg Prod.fst h
    simpa [projTLS] using this
  have h2 : getVal a "link" = getVal b "link" := by
    have := congrArg (fun p => p.2.1) h
    simpa [projTLS] using this
  have h3 : getVal a "snippet" = getVal b "snippet" := by
    have := congrArg (fun p => p.2.2) h
    simpa [projTLS] using this
  simp only [snippetBlock, h1, h2, h3]

theorem snippetBlocks_congr :
    ∀ (l1 l2 : List PyDict) (i : Nat), l1.map projTLS = l2.map projTLS →
      snippetBlocks i l1 = snippetBlocks i l2 := by
  intro l1
  induction l1 with
  | nil =>
    intro l2 i h
    cases l2 with
    | nil => rfl
    | cons b t => simp at h
  | cons a t1 ih =>
    intro l2 i h
    cases l2 with
    | nil => simp at h
    | cons b t2 =>
      simp only [List.map_cons, List.cons.injEq] at h
      simp only [snippetBlocks, snippetBlock_congr i a b h.1, ih t2 (i + 1) h.2]

/-- C9 (amended): the snippet-only formatter's output is built only from
the notice and each record's `title`, `link` and `snippet` fields — the
`content` field is never read, so any two record lists with the same
`(title, link, snippet)` projections (in particular, lists differing only
in their `content` fields) produce identical output.  (The content's
literal text can appear in the output only by coinciding with those
fields, as in the counterexample.) -/
theorem format_snippet_only_content_independent
    (items1 items2 : List PyDict) (notice : String)
    (h : items1.map projTLS = items2.map projTLS) :
    format_results_for_llm_snippet_only items1 notice
      = format_results_for_llm_snippet_only items2 notice := by
  unfold format_results_for_llm_snippet_only
  rw [snippetBlocks_congr items1 items2 1 h]

/-- Witness for C9 (amended): two records differing only in `content`
format identically. -/
theorem format_snippet_only_content_independent_witness :
    ([[("title", PyVal.str "t"), ("content", PyVal.str "AAA")]] :
          List PyDict).map projTLS
        = ([[("title", PyVal.str "t"), ("content", PyVal.str "BBB")]] :
          List PyDict).map projTLS ∧
      format_results_for_llm_snippet_only
          [[("title", PyVal.str "t"), ("content", PyVal.str "AAA")]] "n"
        = format_results_for_llm_snippet_only
          [[("title", PyVal.str "t"), ("content", PyVal.str "BBB")]] "n" :=
  ⟨by decide,
   format_snippet_only_content_independent
      [[("title", PyVal.str "t"), ("content", PyVal.str "AAA")]]
      [[("title", PyVal.str "t"), ("content", PyVal.str "BBB")]] "n" (by decide)⟩

/-! ## Cleaner lemmas and C4 -/

theorem collapse_all (l : List Char) :
    ∀ b, allHWSspace (collapseAux b l) = true := by
  induction l with
  | nil => intro b; rfl
  | cons c rest ih =>
    intro b
    by_cases hc : isHWS c = true
    · cases b <;>
        simpa [collapseAux, hc, allHWSspace] using ih true
    · simpa [collapseAux, hc, allHWSspace] using ih false

theorem collapse_headOK (l : List Char) :
    headOK (collapseAux true l) = true := by
  induction l with
  | nil => rfl
  | cons c rest ih =>
    by_cases hc : isHWS c = true
    · simpa [collapseAux, hc] using ih
    · simp [collapseAux, hc, headOK]

theorem noAdjHWS_cons_headOK (c : Char) (m : List Char)
    (hm : headOK m = true) (h : noAdjHWS m = true) :
    noAdjHWS (c :: m) = true := by
  cases m with
  | nil => rfl
  | cons d t =>
    have hd : isHWS d = false := by simpa [headOK] using hm
    simpa [noAdjHWS, hd] using h

theorem noAdjHWS_cons_notHWS (c : Char) (m : List Char)
    (hc : isHWS c = false) (h : noAdjHWS m = true) :
    noAdjHWS (c :: m) = true := by
  cases m with
  | nil => rfl
  | cons d t => simpa [noAdjHWS, hc] using h

theorem noAdjHWS_tail (c : Char) (m : List Char)
    (h : noAdjHWS (c :: m) = true) : noAdjHWS m = true := by
  cases m with
  | nil => rfl
  | cons d t =>
    simp only [noAdjHWS, Bool.and_eq_true] at h
    exact h.2

theorem collapse_noAdj (l : List Char) :
    ∀ b, noAdjHWS (collapseAux b l) = true := by
  induction l with
  | nil => intro b; rfl
  | cons c rest ih =>
    intro b
    by_cases hc : isHWS c = true
    · cases b with
      | true => simpa [collapseAux, hc] using ih true
      | false =>
        have : collapseAux false (c :: rest) = ' ' :: collapseAux true rest := by
          simp [collapseAux, hc]
        rw [this]
        exact noAdjHWS_cons_headOK ' ' _ (collapse_headOK rest) (ih true)
    · have hc' : isHWS c = false := by simpa using hc
      have : collapseAux b (c :: rest) = c :: collapseAux false rest := by
        simp [collapseAux, hc']
      rw [this]
      exact noAdjHWS_cons_notHWS c _ hc' (ih false)

theorem collapse_id (l : List Char) :
    allHWSspace l = true → noAdjHWS l = true →
      collapseAux false l = l ∧
        (headOK l = true → collapseAux true l = l) := by
  induction l with
  | nil => intro _ _; exact ⟨rfl, fun _ => rfl⟩
  | cons c rest ih =>
    intro hall hadj
    have hallr : allHWSspace rest = true := by
      simp only [allHWSspace, List.all_cons, Bool.and_eq_true] at hall
      exact hall.2
    have hadjr : noAdjHWS rest = true := noAdjHWS_tail c rest hadj
    obtain ⟨ihf, iht⟩ := ih hallr hadjr
    by_cases hc : isHWS c = true
    · have hsp : c = ' ' := by
        simp only [allHWSspace, List.all_cons, Bool.and_eq_true] at hall
        have := hall.1
        rw [hc] at this
        simpa using this
      subst hsp
      have hrestOK : headOK rest = true := by
        cases rest with
        | nil => rfl
        | cons d t =>
          simp only [noAdjHWS, Bool.and_eq_true] at hadj
          have := hadj.1
          rw [hc] at this
          simpa [headOK] using this
      constructor
      · simp [collapseAux, hc, iht hrestOK]
      · intro hhead
        simp [headOK, hc] at hhead
    · constructor
      · simp [collapseAux, hc, ihf]
      · intro _
        simp [collapseAux, hc, ihf]

theorem collapse_mem (l : List Char) :
    ∀ b c, c ∈ collapseAux b l → c ∈ l ∨ c = ' ' := by
  induction l with
  | nil => intro b c h; simp [collapseAux] at h
  | cons d rest ih =>
    intro b c h
    by_cases hd : isHWS d = true
    · cases b with
      | true =>
        rw [show collapseAux true (d :: rest) = collapseAux true rest by
          simp [collapseAux, hd]] at h
        rcases ih true c h with h' | h'
        · exact Or.inl (List.mem_cons_of_mem d h')
        · exact Or.inr h'
      | false =>
        rw [show collapseAux false (d :: rest) = ' ' :: collapseAux true rest by
          simp [collapseAux, hd]] at h
        rcases List.mem_cons.mp h with h' | h'
        · exact Or.inr h'
        · rcases ih true c h' with h'' | h''
          · exact Or.inl (List.mem_cons_of_mem d h'')
          · exact Or.inr h''
    · rw [show collapseAux b (d :: rest) = d :: collapseAux false rest by
        simp [collapseAux, hd]] at h
      rcases List.mem_cons.mp h with h' | h'
      · exact Or.inl (h' ▸ List.mem_cons_self d rest)
      · rcases ih false c h' with h'' | h''
        · exact Or.inl (List.mem_cons_of_mem d h'')
        · exact Or.inr h''

theorem normCR_mem (l : List Char) :
    ∀ c, c ∈ normCR l → c ∈ l ∨ c = '\n' := by
  induction l using normCR.induct with
  | case1 => intro c h; simp [normCR] at h
  | case2 rest ih =>
    intro c h
    rw [normCR.eq_2] at h
    rcases List.mem_cons.mp h with h' | h'
    · exact Or.inr h'
    · rcases ih c h' with h'' | h''
      · exact Or.inl (List.mem_cons_of_mem _ (List.mem_cons_of_mem _ h''))
      · exact Or.inr h''
  | case3 rest hne ih =>
    intro c h
    rw [normCR.eq_3 rest hne] at h
    rcases List.mem_cons.mp h with h' | h'
    · exact Or.inr h'
    · rcases ih c h' with h'' | h''
      · exact Or.inl (List.mem_cons_of_mem _ h'')
      · exact Or.inr h''
  | case4 c rest h1 h2 ih =>
    intro d h
    rw [normCR.eq_4 c rest h1 h2] at h
    rcases List.mem_cons.mp h with h' | h'
    · exact Or.inl (h' ▸ List.mem_cons_self c rest)
    · rcases ih d h' with h'' | h''
      · exact Or.inl (List.mem_cons_of_mem _ h'')
      · exact Or.inr h''

theorem normCR_noCR (l : List Char) : noCR (normCR l) = true := by
  induction l using normCR.induct with
  | case1 => rfl
  | case2 rest ih =>
    rw [normCR.eq_2]
    simpa [noCR] using ih
  | case3 rest hne ih =>
    rw [normCR.eq_3 rest hne]
    simpa [noCR] using ih
  | case4 c rest h1 h2 ih =>
    rw [normCR.eq_4 c rest h1 h2]
    simp only [noCR, List.all_cons, Bool.and_eq_true] at ih ⊢
    exact ⟨by simpa using h2, ih⟩

theorem normCR_id (l : List Char) : noCR l = true → normCR l = l := by
  induction l using normCR.induct with
  | case1 => intro _; rfl
  | case2 rest ih => intro h; simp [noCR] at h
  | case3 rest hne ih => intro h; simp [noCR] at h
  | case4 c rest h1 h2 ih =>
    intro h
    rw [normCR.eq_4 c rest h1 h2]
    have hr : noCR rest = true := by
      simp only [noCR, List.all_cons, Bool.and_eq_true] at h
      exact h.2
    rw [ih hr]

theorem normCR_headOK (l : List Char) :
    headOK l = true → headOK (normCR l) = true := by
  have hn : isHWS '\n' = false := by decide
  induction l using normCR.induct with
  | case1 => intro _; rfl
  | case2 rest ih =>
    intro _
    rw [normCR.eq_2]
    simp [headOK, hn]
  | case3 rest hne ih =>
    intro _
    rw [normCR.eq_3 rest hne]
    simp [headOK, hn]
  | case4 c rest h1 h2 ih =>
    intro h
    rw [normCR.eq_4 c rest h1 h2]
    simpa [headOK] using h

theorem normCR_noAdj (l : List Char) :
    noAdjHWS l = true → noAdjHWS (normCR l) = true := by
  have hn : isHWS '\n' = false := by decide
  induction l using normCR.induct with
  | case1 => intro _; rfl
  | case2 rest ih =>
    intro h
    rw [normCR.eq_2]
    exact noAdjHWS_cons_notHWS _ _ hn
      (ih (noAdjHWS_tail _ _ (noAdjHWS_tail _ _ h)))
  | case3 rest hne ih =>
    intro h
    rw [normCR.eq_3 rest hne]
    exact noAdjHWS_cons_notHWS _ _ hn (ih (noAdjHWS_tail _ _ h))
  | case4 c rest h1 h2 ih =>
    intro h
    rw [normCR.eq_4 c rest h1 h2]
    by_cases hc : isHWS c = true
    · have hrOK : headOK rest = true := by
        cases rest with
        | nil => rfl
        | cons d t =>
          simp only [noAdjHWS, Bool.and_eq_true] at h
          have := h.1
          rw [hc] at this
          simpa [headOK] using this
      exact noAdjHWS_cons_headOK c _ (normCR_headOK rest hrOK)
        (ih (noAdjHWS_tail _ _ h))
    · exact noAdjHWS_cons_notHWS c _ (by simpa using hc)
        (ih (noAdjHWS_tail _ _ h))

theorem all_transport (p : Char → Bool) (m l : List Char) (x : Char)
    (hsub : ∀ c ∈ m, c ∈ l ∨ c = x) (hl : l.all p = true) (hx : p x = true) :
    m.all p = true := by
  rw [List.all_eq_true] at hl ⊢
  intro c hc
  rcases hsub c hc with h | h
  · exact hl c h
  · rw [h]; exact hx

theorem all_of_sublist (p : Char → Bool) (m l : List Char)
    (hs : m.Sublist l) (hl : l.all p = true) : m.all p = true := by
  rw [List.all_eq_true] at hl ⊢
  exact fun c hc => hl c (hs.subset hc)

theorem dropWhileEnd_sublist (p : Char → Bool) (l : List Char) :
    (dropWhileEnd p l).Sublist l := by
  have h1 : (l.reverse.dropWhile p).Sublist l.reverse :=
    List.dropWhile_sublist p
  have h2 := h1.reverse
  rwa [List.reverse_reverse] at h2

theorem pyStripL_sublist (l : List Char) : (pyStripL l).Sublist l :=
  (dropWhileEnd_sublist isPySpace (l.dropWhile isPySpace)).trans
    (List.dropWhile_sublist isPySpace)

theorem dropWhileEnd_decomp (p : Char → Bool) (l : List Char) :
    ∃ post, dropWhileEnd p l ++ post = l := by
  obtain ⟨t, ht⟩ := List.dropWhile_suffix (l := l.reverse) p
  refine ⟨t.reverse, ?_⟩
  have h2 := congrArg List.reverse ht
  simpa [List.reverse_append, dropWhileEnd] using h2

theorem noAdjHWS_append_right (pre m : List Char)
    (h : noAdjHWS (pre ++ m) = true) : noAdjHWS m = true := by
  induction pre with
  | nil => exact h
  | cons a t ih => exact ih (noAdjHWS_tail _ _ h)

theorem noAdjHWS_append_left (m : List Char) :
    ∀ post, noAdjHWS (m ++ post) = true → noAdjHWS m = true := by
  induction m with
  | nil => intro post _; rfl
  | cons a t ih =>
    intro post h
    cases t with
    | nil => rfl
    | cons b u =>
      simp only [List.cons_append, noAdjHWS, Bool.and_eq_true] at h ⊢
      refine ⟨h.1, ?_⟩
      have := ih post (by simpa [List.cons_append] using h.2)
      simpa using this

theorem noAdjHWS_of_pyStripL (l : List Char) (h : noAdjHWS l = true) :
    noAdjHWS (pyStripL l) = true := by
  obtain ⟨pre, hpre⟩ := List.dropWhile_suffix (l := l) isPySpace
  have h1 : noAdjHWS (l.dropWhile isPySpace) = true :=
    noAdjHWS_append_right pre _ (by rwa [hpre])
  obtain ⟨post, hpost⟩ :=
    dropWhileEnd_decomp isPySpace (l.dropWhile isPySpace)
  have h2 : noAdjHWS (dropWhileEnd isPySpace (l.dropWhile isPySpace)) = true :=
    noAdjHWS_append_left _ post (by rwa [hpost])
  exact h2

theorem dropWhile_idem (p : Char → Bool) (l : List Char) :
    (l.dropWhile p).dropWhile p = l.dropWhile p := by
  induction l with
  | nil => rfl
  | cons c rest ih =>
    by_cases hc : p c = true
    · simpa [List.dropWhile_cons, hc] using ih
    · simp [List.dropWhile_cons, hc]

theorem dropWhile_head_false (p : Char → Bool) (l : List Char) :
    ∀ c m, l.dropWhile p = c :: m → p c = false := by
  induction l with
  | nil => intro c m h; simp at h
  | cons a rest ih =>
    intro c m h
    by_cases ha : p a = true
    · rw [List.dropWhile_cons, if_pos ha] at h
      exact ih c m h
    · rw [List.dropWhile_cons, if_neg ha] at h
      injection h with h1 h2
      subst h1
      simpa using ha

theorem pyStripL_idem (l : List Char) : pyStripL (pyStripL l) = pyStripL l := by
  have hmfix : (l.dropWhile isPySpace).dropWhile isPySpace
      = l.dropWhile isPySpace := dropWhile_idem isPySpace l
  have hdw : (pyStripL l).dropWhile isPySpace = pyStripL l := by
    cases he : pyStripL l with
    | nil => rfl
    | cons c e =>
      obtain ⟨post, hpost⟩ :=
        dropWhileEnd_decomp isPySpace (l.dropWhile isPySpace)
      have hm : l.dropWhile isPySpace = c :: (e ++ post) := by
        rw [← hpost,
          show dropWhileEnd isPySpace (l.dropWhile isPySpace) = c :: e from he]
        simp
      have hc : isPySpace c = false :=
        dropWhile_head_false isPySpace l c (e ++ post) hm
      rw [List.dropWhile_cons, if_neg (by simp [hc])]
  show dropWhileEnd isPySpace ((pyStripL l).dropWhile isPySpace) = pyStripL l
  rw [hdw]
  show ((((l.dropWhile isPySpace).reverse.dropWhile
      isPySpace).reverse).reverse.dropWhile isPySpace).reverse = pyStripL l
  rw [List.reverse_reverse, dropWhile_idem]
  rfl

/-- C4 counterexample: `_clean` is NOT idempotent.  For the string
"a \x01 b", the first cleaning removes the control character \x01 and
thereby glues the two (already collapsed) single spaces into a double
space, which a second cleaning collapses: `clean(clean(s)) ≠ clean(s)`. -/
theorem clean_not_idempotent :
    pyClean (pyClean "a \x01 b") ≠ pyClean "a \x01 b" := by decide

/-- C4 (amended): `_clean` is idempotent on every string containing no
character of the control ranges it strips (U+0000-U+0008, U+000E-U+001F;
U+000B/U+000C are horizontal whitespace and already handled by the
collapsing pass).  On such strings — in particular on all ordinary text —
`clean(clean(s)) = clean(s)`; the counterexample shows the restriction is
necessary. -/
theorem clean_idempotent_no_ctl (s : String) (h : noCtl s.data = true) :
    pyClean (pyClean s) = pyClean s := by
  have h1a : allHWSspace (collapseAux false s.data) = true :=
    collapse_all s.data false
  have h1b : noAdjHWS (collapseAux false s.data) = true :=
    collapse_noAdj s.data false
  have h1c : noCtl (collapseAux false s.data) = true :=
    all_transport _ _ s.data ' ' (collapse_mem s.data false) h (by decide)
  have h2a : allHWSspace (normCR (collapseAux false s.data)) = true :=
    all_transport _ _ _ '\n' (normCR_mem _) h1a (by decide)
  have h2b : noAdjHWS (normCR (collapseAux false s.data)) = true :=
    normCR_noAdj _ h1b
  have h2c : noCR (normCR (collapseAux false s.data)) = true := normCR_noCR _
  have h2d : noCtl (normCR (collapseAux false s.data)) = true :=
    all_transport _ _ _ '\n' (normCR_mem _) h1c (by decide)
  have h3 : stripCtl (normCR (collapseAux false s.data))
      = normCR (collapseAux false s.data) :=
    List.filter_eq_self.mpr (fun a ha => List.all_eq_true.mp h2d a ha)
  have hps : pyClean s
      = String.mk (pyStripL (normCR (collapseAux false s.data))) := by
    unfold pyClean collapseHWS
    rw [h3]
  have h4a : allHWSspace (pyStripL (normCR (collapseAux false s.data))) = true :=
    all_of_sublist _ _ _ (pyStripL_sublist _) h2a
  have h4b : noAdjHWS (pyStripL (normCR (collapseAux false s.data))) = true :=
    noAdjHWS_of_pyStripL _ h2b
  have h4c : noCR (pyStripL (normCR (collapseAux false s.data))) = true :=
    all_of_sublist _ _ _ (pyStripL_sublist _) h2c
  have h4d : noCtl (pyStripL (normCR (collapseAux false s.data))) = true :=
    all_of_sublist _ _ _ (pyStripL_sublist _) h2d
  have h5 : stripCtl (pyStripL (normCR (collapseAux false s.data)))
      = pyStripL (normCR (collapseAux false s.data)) :=
    List.filter_eq_self.mpr (fun a ha => List.all_eq_true.mp h4d a ha)
  rw [hps]
  unfold pyClean collapseHWS
  congr 1
  rw [show (String.mk (pyStripL (normCR (collapseAux false s.data)))).data
      = pyStripL (normCR (collapseAux false s.data)) from rfl]
  rw [(collapse_id _ h4a h4b).1]
  rw [normCR_id _ h4c]
  rw [h5]
  exact pyStripL_idem _

/-- Witness for C4 (amended) on an ordinary control-free string. -/
theorem clean_idempotent_no_ctl_witness :
    noCtl ("  An article.\r\nBody   text ".data) = true ∧
      pyClean (pyClean "  An article.\r\nBody   text ")
        = pyClean "  An article.\r\nBody   text " :=
  ⟨by decide, clean_idempotent_no_ctl "  An article.\r\nBody   text " (by decide)⟩
